import Mathlib

/-
  Verification of the interval-tree cursor (src/src/classes/cursor.js).

  The cursor itself is embedded directly from the source.  The tree
  primitives it delegates to (tree_successor, tree_precursor,
  tree_search_nearest_forward, tree_search_nearest_backward,
  local_minimum, local_maximum, root) belong to the host tree, which is
  an external collaborator specified only through its interface (spec
  sections 2 and 6 and the glossary); those are modelled from the spec,
  with node handles represented as indices into the tree's entry list
  taken in ascending key order.
-/

namespace FlattenIntervalTree

/-- An interval key: an ordered pair (low, high) of comparable
endpoints, compared lexicographically. -/
structure Interval where
  low : Int
  high : Int
deriving DecidableEq, Repr

/-- Strict order on interval keys. -/
def Interval.lt (a b : Interval) : Bool :=
  a.low < b.low || (a.low == b.low && a.high < b.high)

/-- Reflexive order on interval keys. -/
def Interval.le (a b : Interval) : Bool :=
  Interval.lt a b || a == b

/-- Modelled from the spec: the host interval tree, reduced to what the
cursor consumes (spec section 6).  Node handles are indices into the
entry list held in strictly ascending key order; the tree's internal
BST structure and balancing are out of scope per spec section 1. -/
structure Tree (α : Type) where
  entries : List (Interval × α)
  sorted : entries.Pairwise (fun a b => Interval.lt a.1 b.1 = true)

/-- Modelled from the spec: `successor_of(node)`, the next node in
ascending key order, or none. -/
def tree_successor {α : Type} (t : Tree α) (n : Nat) : Option Nat :=
  if n + 1 < t.entries.length then some (n + 1) else none

/-- Modelled from the spec: `predecessor_of(node)`, the previous node in
ascending key order, or none. -/
def tree_precursor {α : Type} (t : Tree α) (n : Nat) : Option Nat :=
  if 0 < n ∧ n < t.entries.length then some (n - 1) else none

/-- First index whose key satisfies the predicate. -/
def findFirstIdx {α : Type} (p : Interval → Bool) : List (Interval × α) → Option Nat
  | [] => none
  | e :: rest => if p e.1 then some 0 else (findFirstIdx p rest).map (· + 1)

/-- Last index whose key satisfies the predicate. -/
def findLastIdx {α : Type} (p : Interval → Bool) : List (Interval × α) → Option Nat
  | [] => none
  | e :: rest =>
    match findLastIdx p rest with
    | some j => some (j + 1)
    | none => if p e.1 then some 0 else none

/-- Modelled from the spec: `nearest_at_or_after(root, key)`, the
closest existing node whose key is at least the target key. -/
def tree_search_nearest_forward {α : Type} (t : Tree α) (s : Interval) : Option Nat :=
  findFirstIdx (fun k => Interval.le s k) t.entries

/-- Modelled from the spec: `nearest_at_or_before(root, key)`, the
closest existing node whose key is at most the target key. -/
def tree_search_nearest_backward {α : Type} (t : Tree α) (s : Interval) : Option Nat :=
  findLastIdx (fun k => Interval.le k s) t.entries

/-- Modelled from the spec: `minimum_of(subtreeRoot)` applied to the
root, which the cursor only calls when the root is non-null. -/
def local_minimum {α : Type} (_ : Tree α) : Nat := 0

/-- Modelled from the spec: `maximum_of(subtreeRoot)` applied to the
root, which the cursor only calls when the root is non-null. -/
def local_maximum {α : Type} (t : Tree α) : Nat := t.entries.length - 1

/-- The stateful cursor of src/src/classes/cursor.js: the tree
reference, the one-shot seek target (`search_node`, a synthetic node
holding only an interval), the output mapper, and the current position
(`current_node`, a node handle or none). -/
structure Cursor (α β : Type) where
  tree : Tree α
  search_node : Option Interval
  outputMapperFn : α → Interval → β
  current_node : Option Nat

/-- The constructor of cursor.js: `search_node` is the optional
interval, `current_node` starts as null. -/
def Cursor.make {α β : Type} (tree : Tree α) (interval : Option Interval)
    (outputMapperFn : α → Interval → β) : Cursor α β :=
  { tree := tree, search_node := interval, outputMapperFn := outputMapperFn,
    current_node := none }

/-- The return mapping of cursor.js: a reached node is mapped through
`outputMapperFn(item.value, item.key)`, the absence of a node gives
null. -/
def Cursor.mapNode {α β : Type} (c : Cursor α β) (pos : Option Nat) : Option β :=
  match pos with
  | some i => (c.tree.entries[i]?).map (fun e => c.outputMapperFn e.2 e.1)
  | none => none

/-- `Cursor.next` from cursor.js: successor of the current node if
positioned; otherwise the one-shot nearest-forward search, consuming
the seek target; otherwise the tree minimum when the root exists;
otherwise nothing.  The found node (or null) becomes the new current
node and is mapped for output. -/
def Cursor.next {α β : Type} (c : Cursor α β) : Option β × Cursor α β :=
  match c.current_node with
  | some n =>
    let s := tree_successor c.tree n
    (c.mapNode s, { c with current_node := s })
  | none =>
    match c.search_node with
    | some sn =>
      let s := tree_search_nearest_forward c.tree sn
      (c.mapNode s, { c with current_node := s, search_node := none })
    | none =>
      if c.tree.entries.isEmpty then
        (none, { c with current_node := none })
      else
        let s := some (local_minimum c.tree)
        (c.mapNode s, { c with current_node := s })

/-- `Cursor.prev` from cursor.js: the mirror of `Cursor.next`, using
the predecessor, the nearest-backward search and the tree maximum. -/
def Cursor.prev {α β : Type} (c : Cursor α β) : Option β × Cursor α β :=
  match c.current_node with
  | some n =>
    let s := tree_precursor c.tree n
    (c.mapNode s, { c with current_node := s })
  | none =>
    match c.search_node with
    | some sn =>
      let s := tree_search_nearest_backward c.tree sn
      (c.mapNode s, { c with current_node := s, search_node := none })
    | none =>
      if c.tree.entries.isEmpty then
        (none, { c with current_node := none })
      else
        let s := some (local_maximum c.tree)
        (c.mapNode s, { c with current_node := s })

/-- Iterated `next`: the outputs of k successive calls and the final
cursor state. -/
def nextRun {α β : Type} (c : Cursor α β) : Nat → List (Option β) × Cursor α β
  | 0 => ([], c)
  | k + 1 =>
    let r := c.next
    let rest := nextRun r.2 k
    (r.1 :: rest.1, rest.2)

/-- Iterated `prev`: the outputs of k successive calls and the final
cursor state. -/
def prevRun {α β : Type} (c : Cursor α β) : Nat → List (Option β) × Cursor α β
  | 0 => ([], c)
  | k + 1 =>
    let r := c.prev
    let rest := prevRun r.2 k
    (r.1 :: rest.1, rest.2)

/-- A direction of one cursor call. -/
inductive Dir : Type
  | fwd : Dir
  | bwd : Dir
deriving DecidableEq, Repr

/-- One cursor call in the given direction. -/
def Cursor.step {α β : Type} (c : Cursor α β) : Dir → Option β × Cursor α β
  | Dir.fwd => c.next
  | Dir.bwd => c.prev

/-- A sequence of interleaved calls: the outputs and the final state. -/
def runOps {α β : Type} (c : Cursor α β) : List Dir → List (Option β) × Cursor α β
  | [] => ([], c)
  | d :: ds =>
    let r := c.step d
    let rest := runOps r.2 ds
    (r.1 :: rest.1, rest.2)

/-! ### Step characterization lemmas -/

theorem next_of_pos {α β : Type} (c : Cursor α β) (n : Nat)
    (h : c.current_node = some n) :
    c.next = (c.mapNode (tree_successor c.tree n),
      { c with current_node := tree_successor c.tree n }) := by
  obtain ⟨t, sn, f, cur⟩ := c
  cases h
  rfl

theorem next_of_seek {α β : Type} (c : Cursor α β) (sn : Interval)
    (h1 : c.current_node = none) (h2 : c.search_node = some sn) :
    c.next = (c.mapNode (tree_search_nearest_forward c.tree sn),
      { c with current_node := tree_search_nearest_forward c.tree sn,
               search_node := none }) := by
  obtain ⟨t, s, f, cur⟩ := c
  simp only at h1 h2
  cases h1
  cases h2
  rfl

theorem next_of_fresh {α β : Type} (c : Cursor α β)
    (h1 : c.current_node = none) (h2 : c.search_node = none)
    (h3 : c.tree.entries ≠ []) :
    c.next = (c.mapNode (some (local_minimum c.tree)),
      { c with current_node := some (local_minimum c.tree) }) := by
  obtain ⟨t, s, f, cur⟩ := c
  simp only at h1 h2 h3
  cases h1
  cases h2
  simp only [Cursor.next]
  split
  · exact absurd (List.isEmpty_iff.mp (by assumption)) h3
  · rfl

theorem next_of_empty {α β : Type} (c : Cursor α β)
    (h1 : c.current_node = none) (h2 : c.search_node = none)
    (h3 : c.tree.entries = []) :
    c.next = (none, { c with current_node := none }) := by
  obtain ⟨t, s, f, cur⟩ := c
  simp only at h1 h2 h3
  cases h1
  cases h2
  simp only [Cursor.next, h3, List.isEmpty_nil, if_pos]

theorem prev_of_pos {α β : Type} (c : Cursor α β) (n : Nat)
    (h : c.current_node = some n) :
    c.prev = (c.mapNode (tree_precursor c.tree n),
      { c with current_node := tree_precursor c.tree n }) := by
  obtain ⟨t, sn, f, cur⟩ := c
  cases h
  rfl

theorem prev_of_seek {α β : Type} (c : Cursor α β) (sn : Interval)
    (h1 : c.current_node = none) (h2 : c.search_node = some sn) :
    c.prev = (c.mapNode (tree_search_nearest_backward c.tree sn),
      { c with current_node := tree_search_nearest_backward c.tree sn,
               search_node := none }) := by
  obtain ⟨t, s, f, cur⟩ := c
  simp only at h1 h2
  cases h1
  cases h2
  rfl

theorem prev_of_fresh {α β : Type} (c : Cursor α β)
    (h1 : c.current_node = none) (h2 : c.search_node = none)
    (h3 : c.tree.entries ≠ []) :
    c.prev = (c.mapNode (some (local_maximum c.tree)),
      { c with current_node := some (local_maximum c.tree) }) := by
  obtain ⟨t, s, f, cur⟩ := c
  simp only at h1 h2 h3
  cases h1
  cases h2
  simp only [Cursor.prev]
  split
  · exact absurd (List.isEmpty_iff.mp (by assumption)) h3
  · rfl

theorem prev_of_empty {α β : Type} (c : Cursor α β)
    (h1 : c.current_node = none) (h2 : c.search_node = none)
    (h3 : c.tree.entries = []) :
    c.prev = (none, { c with current_node := none }) := by
  obtain ⟨t, s, f, cur⟩ := c
  simp only at h1 h2 h3
  cases h1
  cases h2
  simp only [Cursor.prev, h3, List.isEmpty_nil, if_pos]

/-! ### Validity of positions returned by the primitives -/

theorem mapNode_none {α β : Type} (c : Cursor α β) : c.mapNode none = none := rfl

theorem mapNode_some_of_lt {α β : Type} (c : Cursor α β) (i : Nat)
    (h : i < c.tree.entries.length) :
    c.mapNode (some i)
      = some (c.outputMapperFn (c.tree.entries[i].2) (c.tree.entries[i].1)) := by
  simp [Cursor.mapNode, List.getElem?_eq_getElem h]

theorem tree_successor_lt {α : Type} (t : Tree α) (n i : Nat)
    (h : tree_successor t n = some i) : i < t.entries.length := by
  unfold tree_successor at h
  split at h
  · cases h; assumption
  · cases h

theorem tree_precursor_lt {α : Type} (t : Tree α) (n i : Nat)
    (h : tree_precursor t n = some i) : i < t.entries.length := by
  unfold tree_precursor at h
  split at h
  · cases h; omega
  · cases h

theorem findFirstIdx_lt_length {α : Type} (p : Interval → Bool) :
    ∀ (l : List (Interval × α)) (i : Nat), findFirstIdx p l = some i → i < l.length := by
  intro l
  induction l with
  | nil => intro i h; cases h
  | cons e rest ih =>
    intro i h
    unfold findFirstIdx at h
    split at h
    · cases h; simp
    · cases hr : findFirstIdx p rest with
      | none => rw [hr] at h; cases h
      | some j =>
        rw [hr] at h
        cases h
        have := ih j hr
        simp
        omega

theorem findLastIdx_lt_length {α : Type} (p : Interval → Bool) :
    ∀ (l : List (Interval × α)) (i : Nat), findLastIdx p l = some i → i < l.length := by
  intro l
  induction l with
  | nil => intro i h; cases h
  | cons e rest ih =>
    intro i h
    unfold findLastIdx at h
    split at h
    · rename_i j hj
      cases h
      have := ih j hj
      simp only [List.length_cons]
      omega
    · split at h
      · cases h; simp
      · cases h

theorem tree_search_nearest_forward_lt {α : Type} (t : Tree α) (s : Interval) (i : Nat)
    (h : tree_search_nearest_forward t s = some i) : i < t.entries.length :=
  findFirstIdx_lt_length _ _ _ h

theorem tree_search_nearest_backward_lt {α : Type} (t : Tree α) (s : Interval) (i : Nat)
    (h : tree_search_nearest_backward t s = some i) : i < t.entries.length :=
  findLastIdx_lt_length _ _ _ h

/-! ### Traversal runs from a known position -/

theorem nextRun_from_pos {α β : Type} (t : Tree α) (f : α → Interval → β)
    (sn : Option Interval) :
    ∀ (m i : Nat), i < t.entries.length → t.entries.length - i = m →
    (nextRun (Cursor.mk t sn f (some i)) m).1
      = ((t.entries.drop (i + 1)).map (fun e => some (f e.2 e.1))) ++ [none] := by
  intro m
  induction m with
  | zero => intro i h1 h2; omega
  | succ m ih =>
    intro i h1 h2
    have hnext := next_of_pos (Cursor.mk t sn f (some i)) i rfl
    by_cases hlt : i + 1 < t.entries.length
    · have hs : tree_successor t i = some (i + 1) := by
        unfold tree_successor; rw [if_pos hlt]
      rw [hs] at hnext
      have hmap := mapNode_some_of_lt (Cursor.mk t sn f (some i)) (i + 1) hlt
      simp only [nextRun, hnext, hmap]
      have hrest := ih (i + 1) hlt (by omega)
      rw [hrest, List.drop_eq_getElem_cons hlt, List.map_cons, List.cons_append]
    · have hs : tree_successor t i = none := by
        unfold tree_successor; rw [if_neg hlt]
      rw [hs] at hnext
      have hm : m = 0 := by omega
      subst hm
      simp only [nextRun, hnext, mapNode_none]
      have hdrop : t.entries.drop (i + 1) = [] := by
        apply List.drop_eq_nil_of_le; omega
      rw [hdrop]
      rfl

theorem prevRun_from_pos {α β : Type} (t : Tree α) (f : α → Interval → β)
    (sn : Option Interval) :
    ∀ (m i : Nat), i < t.entries.length → i + 1 = m →
    (prevRun (Cursor.mk t sn f (some i)) m).1
      = ((t.entries.take i).reverse.map (fun e => some (f e.2 e.1))) ++ [none] := by
  intro m
  induction m with
  | zero => intro i h1 h2; omega
  | succ m ih =>
    intro i h1 h2
    have hprev := prev_of_pos (Cursor.mk t sn f (some i)) i rfl
    by_cases hpos : 0 < i
    · have hs : tree_precursor t i = some (i - 1) := by
        unfold tree_precursor; rw [if_pos ⟨hpos, h1⟩]
      rw [hs] at hprev
      have hlt : i - 1 < t.entries.length := by omega
      have hmap := mapNode_some_of_lt (Cursor.mk t sn f (some i)) (i - 1) hlt
      simp only [prevRun, hprev, hmap]
      have hrest := ih (i - 1) hlt (by omega)
      rw [hrest]
      have htake : t.entries.take i
          = t.entries.take (i - 1) ++ [t.entries[i - 1]] := by
        have h0 : i = i - 1 + 1 := by omega
        conv_lhs => rw [h0]
        rw [List.take_succ, List.getElem?_eq_getElem hlt]
        rfl
      rw [htake]
      simp only [List.reverse_append, List.reverse_cons, List.reverse_nil,
        List.nil_append, List.singleton_append, List.map_cons, List.cons_append]
    · have hi : i = 0 := by omega
      subst hi
      have hs : tree_precursor t 0 = none := by
        unfold tree_precursor
        rw [if_neg]
        intro hc
        exact absurd hc.1 (by omega)
      rw [hs] at hprev
      have hm : m = 0 := by omega
      subst hm
      simp only [prevRun, hprev, mapNode_none]
      rfl

/-- C1: for a tree with n entries, a cursor constructed without an
interval yields over its first n calls to next() the tree's entries in
strictly ascending key order, and the (n+1)-th call returns null; the
mirror holds for prev() and descending order. -/
theorem C1_full_traversal_sorted {α β : Type} (t : Tree α) (f : α → Interval → β) :
    ((nextRun (Cursor.make t none f) (t.entries.length + 1)).1
        = t.entries.map (fun e => some (f e.2 e.1)) ++ [none])
    ∧ ((prevRun (Cursor.make t none f) (t.entries.length + 1)).1
        = t.entries.reverse.map (fun e => some (f e.2 e.1)) ++ [none])
    ∧ (t.entries.map Prod.fst).Pairwise (fun a b => Interval.lt a b = true)
    ∧ (t.entries.reverse.map Prod.fst).Pairwise (fun a b => Interval.lt b a = true) := by
  refine ⟨?_, ?_, ?_, ?_⟩
  · by_cases hne : t.entries = []
    · have hstep := next_of_empty (Cursor.make t none f) rfl rfl hne
      simp only [hne, List.length_nil, nextRun, hstep]
      rfl
    · have hlen : 0 < t.entries.length := List.length_pos.mpr hne
      have hstep := next_of_fresh (Cursor.make t none f) rfl rfl hne
      have hmap := mapNode_some_of_lt (Cursor.make t none f) 0 hlen
      simp only [Cursor.make, local_minimum] at hstep hmap
      simp only [Cursor.make, nextRun, hstep, hmap]
      have hrest := nextRun_from_pos t f none t.entries.length 0 hlen (by omega)
      rw [hrest]
      have hcons : t.entries = t.entries[0] :: t.entries.drop 1 := by
        have h := List.drop_eq_getElem_cons hlen
        simpa using h
      conv_rhs => rw [hcons]
      simp only [List.map_cons, List.cons_append]
  · by_cases hne : t.entries = []
    · have hstep := prev_of_empty (Cursor.make t none f) rfl rfl hne
      simp only [hne, List.length_nil, prevRun, hstep]
      rfl
    · have hlen : 0 < t.entries.length := List.length_pos.mpr hne
      have hlast : t.entries.length - 1 < t.entries.length := by omega
      have hstep := prev_of_fresh (Cursor.make t none f) rfl rfl hne
      have hmap := mapNode_some_of_lt (Cursor.make t none f)
        (t.entries.length - 1) hlast
      simp only [Cursor.make, local_maximum] at hstep hmap
      simp only [Cursor.make, prevRun, hstep, hmap]
      have hrest := prevRun_from_pos t f none t.entries.length
        (t.entries.length - 1) hlast (by omega)
      rw [hrest]
      have hsplit : t.entries
          = t.entries.take (t.entries.length - 1)
            ++ [t.entries[t.entries.length - 1]] := by
        have h0 : t.entries.length = t.entries.length - 1 + 1 := by omega
        conv_lhs => rw [← List.take_length (l := t.entries), h0]
        rw [List.take_succ, List.getElem?_eq_getElem hlast]
        rfl
      conv_rhs => rw [hsplit]
      simp only [List.reverse_append, List.reverse_cons, List.reverse_nil,
        List.nil_append, List.singleton_append, List.map_cons, List.cons_append]
  · rw [List.pairwise_map]
    exact t.sorted
  · rw [List.pairwise_map, List.pairwise_reverse]
    exact t.sorted

/-- C2: on a non-empty tree, a cursor whose current position is none
(as after a step found no further node) re-anchors: next() returns the
tree's minimum entry and prev() returns the tree's maximum entry, so
traversal is cyclic once started. -/
theorem C2_cyclic_restart {α β : Type} (c : Cursor α β)
    (h1 : c.current_node = none) (h2 : c.search_node = none)
    (h3 : c.tree.entries ≠ []) :
    c.next.1 = some (c.outputMapperFn (c.tree.entries.head h3).2
        (c.tree.entries.head h3).1)
    ∧ c.next.2.current_node = some 0
    ∧ c.prev.1 = some (c.outputMapperFn (c.tree.entries.getLast h3).2
        (c.tree.entries.getLast h3).1)
    ∧ c.prev.2.current_node = some (c.tree.entries.length - 1) := by
  have hlen : 0 < c.tree.entries.length := List.length_pos.mpr h3
  have hlast : c.tree.entries.length - 1 < c.tree.entries.length := by omega
  have hn := next_of_fresh c h1 h2 h3
  have hp := prev_of_fresh c h1 h2 h3
  have hm0 := mapNode_some_of_lt c 0 hlen
  have hml := mapNode_some_of_lt c (c.tree.entries.length - 1) hlast
  have hhead : c.tree.entries[0] = c.tree.entries.head h3 := List.getElem_zero hlen
  have hgl : c.tree.entries.getLast h3 = c.tree.entries[c.tree.entries.length - 1] :=
    List.getLast_eq_getElem c.tree.entries h3
  refine ⟨?_, ?_, ?_, ?_⟩
  · rw [hn]
    simp only [local_minimum, hm0, hhead]
  · rw [hn]
    rfl
  · rw [hp]
    simp only [local_maximum, hml, hgl]
  · rw [hp]
    rfl

/-- A concrete two-entry tree used by the witnesses. -/
def sampleEntries : List (Interval × Nat) :=
  [(Interval.mk 1 2, 10), (Interval.mk 3 4, 20)]

/-- A concrete tree used by the witnesses. -/
def sampleTree : Tree Nat where
  entries := sampleEntries
  sorted := by decide

/-- A concrete output mapper used by the witnesses. -/
def samplePair : Nat → Interval → Nat × Interval := fun v k => (v, k)

/-- Witness for C2 at a concrete exhausted cursor over a two-entry
tree. -/
theorem C2_cyclic_restart_witness :
    (Cursor.mk sampleTree none samplePair none).next.1
        = some (10, Interval.mk 1 2)
    ∧ (Cursor.mk sampleTree none samplePair none).prev.1
        = some (20, Interval.mk 3 4) := by
  have h := C2_cyclic_restart (Cursor.mk sampleTree none samplePair none)
    rfl rfl (by decide)
  exact ⟨by rw [h.1]; rfl, by rw [h.2.2.1]; rfl⟩

/-! ### Semantics of the nearest searches over the entry list -/

theorem mapNode_eq_bind {α β : Type} (c : Cursor α β) (o : Option Nat) :
    c.mapNode o = (o.bind (fun i => c.tree.entries[i]?)).map
      (fun e => c.outputMapperFn e.2 e.1) := by
  cases o with
  | none => rfl
  | some i => simp [Cursor.mapNode]

theorem findFirstIdx_bind_getElem {α : Type} (p : Interval → Bool)
    (l : List (Interval × α)) :
    ((findFirstIdx p l).bind (fun i => l[i]?)) = l.find? (fun e => p e.1) := by
  induction l with
  | nil => rfl
  | cons e rest ih =>
    unfold findFirstIdx
    by_cases hp : p e.1 = true
    · rw [if_pos hp]
      simp [List.find?_cons, hp]
    · rw [if_neg hp]
      simp only [List.find?_cons, hp, ← ih]
      cases hr : findFirstIdx p rest with
      | none => rfl
      | some j => simp [List.getElem?_cons_succ]

theorem findLastIdx_bind_getElem {α : Type} (p : Interval → Bool)
    (l : List (Interval × α)) :
    ((findLastIdx p l).bind (fun i => l[i]?))
      = (l.filter (fun e => p e.1)).getLast? := by
  induction l with
  | nil => rfl
  | cons e rest ih =>
    unfold findLastIdx
    cases hr : findLastIdx p rest with
    | some j =>
      rw [hr] at ih
      have hj : j < rest.length := findLastIdx_lt_length p rest j hr
      simp only [Option.some_bind] at ih
      have hne : rest.filter (fun e => p e.1) ≠ [] := by
        intro hc
        rw [hc, List.getLast?_nil, List.getElem?_eq_getElem hj] at ih
        cases ih
      obtain ⟨b, bs, hfil⟩ := List.exists_cons_of_ne_nil hne
      by_cases hp : p e.1 = true
      · simp only [Option.some_bind, List.getElem?_cons_succ, List.filter_cons,
          hp, if_true, hfil, List.getLast?_cons_cons]
        rw [← hfil, ← ih]
      · simp [Option.some_bind, List.getElem?_cons_succ, List.filter_cons, hp, ← ih]
    | none =>
      rw [hr] at ih
      simp only [Option.none_bind] at ih
      have hfil : rest.filter (fun e => p e.1) = [] := by
        rcases hc : rest.filter (fun e => p e.1) with _ | ⟨b, bs⟩
        · exact hc
        · rw [hc] at ih
          cases List.getLast?_eq_none_iff.mp ih.symm
      by_cases hp : p e.1 = true
      · simp [List.filter_cons, hp, hfil]
      · simp [List.filter_cons, hp, hfil]

/-- A concrete tree holding exactly the keys [3,3] and [7,7] with
arbitrary payloads, per the example of spec section 8. -/
def twoTree {α : Type} (v1 v2 : α) : Tree α where
  entries := [(Interval.mk 3 3, v1), (Interval.mk 7 7, v2)]
  sorted := by
    refine List.pairwise_cons.mpr ⟨?_, List.pairwise_singleton _ _⟩
    intro b hb
    rw [List.mem_singleton.mp hb]
    show Interval.lt (Interval.mk 3 3) (Interval.mk 7 7) = true
    decide

/-- C3: a cursor seeded with a target interval: the first next()
returns the entry nearest at or after the target (the first entry in
ascending order whose key is at least the target), and the first
prev() the entry nearest at or before it (the last entry whose key is
at most the target); in particular seeding with [5,5] over a tree of
exactly [3,3] and [7,7] gives [7,7] from next() and [3,3] from
prev(). -/
theorem C3_seek_semantics {α β : Type} (t : Tree α) (s : Interval)
    (f : α → Interval → β) :
    ((Cursor.make t (some s) f).next.1
        = (t.entries.find? (fun e => Interval.le s e.1)).map (fun e => f e.2 e.1))
    ∧ ((Cursor.make t (some s) f).prev.1
        = ((t.entries.filter (fun e => Interval.le e.1 s)).getLast?).map
            (fun e => f e.2 e.1))
    ∧ (∀ (v1 v2 : α),
        (Cursor.make (twoTree v1 v2)
            (some (Interval.mk 5 5)) f).next.1 = some (f v2 (Interval.mk 7 7))
        ∧ (Cursor.make (twoTree v1 v2)
            (some (Interval.mk 5 5)) f).prev.1 = some (f v1 (Interval.mk 3 3))) := by
  refine ⟨?_, ?_, ?_⟩
  · have hstep := next_of_seek (Cursor.make t (some s) f) s rfl rfl
    rw [hstep]
    rw [mapNode_eq_bind]
    simp only [Cursor.make, tree_search_nearest_forward]
    rw [findFirstIdx_bind_getElem]
  · have hstep := prev_of_seek (Cursor.make t (some s) f) s rfl rfl
    rw [hstep]
    rw [mapNode_eq_bind]
    simp only [Cursor.make, tree_search_nearest_backward]
    rw [findLastIdx_bind_getElem]
  · intro v1 v2
    exact ⟨rfl, rfl⟩

/-- The invariant of spec section 3: a cursor never holds a seek
target and a current position simultaneously. -/
def seekInv {α β : Type} (c : Cursor α β) : Prop :=
  c.search_node = none ∨ c.current_node = none

/-- C4: the seek target is consumed exactly once, on the first call
that finds the cursor unpositioned; a freshly constructed cursor
satisfies the invariant, every call preserves it, and once the cursor
is anchored at a node both calls advance only by successor or
predecessor steps with the seek state untouched. -/
theorem C4_seek_consumed_once {α β : Type} (c : Cursor α β) (t : Tree α)
    (io : Option Interval) (f : α → Interval → β) :
    seekInv (Cursor.make t io f)
    ∧ (∀ s : Interval, c.current_node = none → c.search_node = some s →
        c.next.2.search_node = none ∧ c.prev.2.search_node = none)
    ∧ (seekInv c → seekInv c.next.2 ∧ seekInv c.prev.2)
    ∧ (∀ n : Nat, c.current_node = some n →
        c.next.2.search_node = c.search_node
        ∧ c.next.2.current_node = tree_successor c.tree n
        ∧ c.prev.2.search_node = c.search_node
        ∧ c.prev.2.current_node = tree_precursor c.tree n) := by
  refine ⟨Or.inr rfl, ?_, ?_, ?_⟩
  · intro s h1 h2
    rw [next_of_seek c s h1 h2, prev_of_seek c s h1 h2]
    exact ⟨rfl, rfl⟩
  · intro hinv
    cases hcur : c.current_node with
    | some n =>
      rw [next_of_pos c n hcur, prev_of_pos c n hcur]
      rcases hinv with hs | hc
      · exact ⟨Or.inl hs, Or.inl hs⟩
      · rw [hcur] at hc; cases hc
    | none =>
      cases hsn : c.search_node with
      | some s =>
        rw [next_of_seek c s hcur hsn, prev_of_seek c s hcur hsn]
        exact ⟨Or.inl rfl, Or.inl rfl⟩
      | none =>
        by_cases he : c.tree.entries = []
        · rw [next_of_empty c hcur hsn he, prev_of_empty c hcur hsn he]
          exact ⟨Or.inl hsn, Or.inl hsn⟩
        · rw [next_of_fresh c hcur hsn he, prev_of_fresh c hcur hsn he]
          exact ⟨Or.inl hsn, Or.inl hsn⟩
  · intro n hcur
    rw [next_of_pos c n hcur, prev_of_pos c n hcur]
    exact ⟨rfl, rfl, rfl, rfl⟩

/-- Witness for C4 at concrete cursors over the sample tree. -/
theorem C4_seek_consumed_once_witness :
    (Cursor.mk sampleTree (some (Interval.mk 1 2)) samplePair none).next.2.search_node
        = none
    ∧ (Cursor.mk sampleTree none samplePair (some 0)).next.2.current_node = some 1 := by
  have h1 := C4_seek_consumed_once
    (Cursor.mk sampleTree (some (Interval.mk 1 2)) samplePair none)
    sampleTree none samplePair
  have h2 := C4_seek_consumed_once
    (Cursor.mk sampleTree none samplePair (some 0)) sampleTree none samplePair
  refine ⟨(h1.2.1 (Interval.mk 1 2) rfl rfl).1, ?_⟩
  rw [(h2.2.2.2 0 rfl).2.1]
  decide

/-! ### Steps on an empty tree -/

theorem next_empty_none {α β : Type} (c : Cursor α β)
    (h : c.tree.entries = []) :
    c.next.1 = none ∧ c.next.2.tree = c.tree := by
  cases hcur : c.current_node with
  | some n =>
    rw [next_of_pos c n hcur]
    have hs : tree_successor c.tree n = none := by
      unfold tree_successor
      rw [h]
      simp
    rw [hs]
    exact ⟨rfl, rfl⟩
  | none =>
    cases hsn : c.search_node with
    | some s =>
      rw [next_of_seek c s hcur hsn]
      have hs : tree_search_nearest_forward c.tree s = none := by
        unfold tree_search_nearest_forward
        rw [h]
        rfl
      rw [hs]
      exact ⟨rfl, rfl⟩
    | none =>
      rw [next_of_empty c hcur hsn h]
      exact ⟨rfl, rfl⟩

theorem prev_empty_none {α β : Type} (c : Cursor α β)
    (h : c.tree.entries = []) :
    c.prev.1 = none ∧ c.prev.2.tree = c.tree := by
  cases hcur : c.current_node with
  | some n =>
    rw [prev_of_pos c n hcur]
    have hs : tree_precursor c.tree n = none := by
      unfold tree_precursor
      rw [h]
      simp
    rw [hs]
    exact ⟨rfl, rfl⟩
  | none =>
    cases hsn : c.search_node with
    | some s =>
      rw [prev_of_seek c s hcur hsn]
      have hs : tree_search_nearest_backward c.tree s = none := by
        unfold tree_search_nearest_backward
        rw [h]
        rfl
      rw [hs]
      exact ⟨rfl, rfl⟩
    | none =>
      rw [prev_of_empty c hcur hsn h]
      exact ⟨rfl, rfl⟩

/-- C5: a cursor bound to an empty tree returns the null sentinel on
every call to next() and prev(), in any number and order, without
error. -/
theorem C5_empty_tree_all_none {α β : Type} (c : Cursor α β)
    (h : c.tree.entries = []) (ops : List Dir) :
    (runOps c ops).1 = List.replicate ops.length none := by
  induction ops generalizing c with
  | nil => rfl
  | cons d ds ih =>
    have hstep : (c.step d).1 = none ∧ (c.step d).2.tree = c.tree := by
      cases d with
      | fwd => exact next_empty_none c h
      | bwd => exact prev_empty_none c h
    simp only [runOps, List.length_cons, List.replicate_succ]
    rw [hstep.1, ih ((c.step d).2) (by rw [hstep.2]; exact h)]

/-- The empty tree used by the C5 witness. -/
def emptyTree : Tree Nat where
  entries := []
  sorted := List.Pairwise.nil

/-- Witness for C5: three interleaved calls on an empty tree. -/
theorem C5_empty_tree_all_none_witness :
    (runOps (Cursor.mk emptyTree none samplePair none)
        [Dir.fwd, Dir.bwd, Dir.fwd]).1 = List.replicate 3 none :=
  C5_empty_tree_all_none (Cursor.mk emptyTree none samplePair none) rfl
    [Dir.fwd, Dir.bwd, Dir.fwd]

/-! ### Frame conditions -/

theorem next_frame {α β : Type} (c : Cursor α β) :
    c.next.2.tree = c.tree ∧ c.next.2.outputMapperFn = c.outputMapperFn
    ∧ (c.next.2.search_node = c.search_node ∨ c.next.2.search_node = none) := by
  cases hcur : c.current_node with
  | some n =>
    rw [next_of_pos c n hcur]
    exact ⟨rfl, rfl, Or.inl rfl⟩
  | none =>
    cases hsn : c.search_node with
    | some s =>
      rw [next_of_seek c s hcur hsn]
      exact ⟨rfl, rfl, Or.inr rfl⟩
    | none =>
      by_cases he : c.tree.entries = []
      · rw [next_of_empty c hcur hsn he]
        exact ⟨rfl, rfl, Or.inl hsn⟩
      · rw [next_of_fresh c hcur hsn he]
        exact ⟨rfl, rfl, Or.inl hsn⟩

theorem prev_frame {α β : Type} (c : Cursor α β) :
    c.prev.2.tree = c.tree ∧ c.prev.2.outputMapperFn = c.outputMapperFn
    ∧ (c.prev.2.search_node = c.search_node ∨ c.prev.2.search_node = none) := by
  cases hcur : c.current_node with
  | some n =>
    rw [prev_of_pos c n hcur]
    exact ⟨rfl, rfl, Or.inl rfl⟩
  | none =>
    cases hsn : c.search_node with
    | some s =>
      rw [prev_of_seek c s hcur hsn]
      exact ⟨rfl, rfl, Or.inr rfl⟩
    | none =>
      by_cases he : c.tree.entries = []
      · rw [prev_of_empty c hcur hsn he]
        exact ⟨rfl, rfl, Or.inl hsn⟩
      · rw [prev_of_fresh c hcur hsn he]
        exact ⟨rfl, rfl, Or.inl hsn⟩

/-- C8: next() and prev() never mutate the tree (its entry list, hence
its nodes and their order, is untouched) nor the output mapper; aside
from the current position, the only state change is that the seek
target may be consumed (set to none). -/
theorem C8_frame_no_tree_mutation {α β : Type} (c : Cursor α β) :
    c.next.2.tree = c.tree
    ∧ c.prev.2.tree = c.tree
    ∧ c.next.2.outputMapperFn = c.outputMapperFn
    ∧ c.prev.2.outputMapperFn = c.outputMapperFn
    ∧ (c.next.2.search_node = c.search_node ∨ c.next.2.search_node = none)
    ∧ (c.prev.2.search_node = c.search_node ∨ c.prev.2.search_node = none) := by
  obtain ⟨h1, h2, h3⟩ := next_frame c
  obtain ⟨h4, h5, h6⟩ := prev_frame c
  exact ⟨h1, h4, h2, h5, h3, h6⟩

/-! ### Output versus resulting position -/

theorem next_result {α β : Type} (c : Cursor α β) :
    c.next.1 = c.mapNode c.next.2.current_node
    ∧ (∀ i : Nat, c.next.2.current_node = some i → i < c.tree.entries.length) := by
  cases hcur : c.current_node with
  | some n =>
    rw [next_of_pos c n hcur]
    exact ⟨rfl, fun i hi => tree_successor_lt c.tree n i hi⟩
  | none =>
    cases hsn : c.search_node with
    | some s =>
      rw [next_of_seek c s hcur hsn]
      exact ⟨rfl, fun i hi => tree_search_nearest_forward_lt c.tree s i hi⟩
    | none =>
      by_cases he : c.tree.entries = []
      · rw [next_of_empty c hcur hsn he]
        exact ⟨rfl, fun i hi => by cases hi⟩
      · rw [next_of_fresh c hcur hsn he]
        refine ⟨rfl, ?_⟩
        intro i hi
        have hi2 : some (local_minimum c.tree) = some i := hi
        cases hi2
        have hl : 0 < c.tree.entries.length := List.length_pos.mpr he
        simpa [local_minimum] using hl

theorem prev_result {α β : Type} (c : Cursor α β) :
    c.prev.1 = c.mapNode c.prev.2.current_node
    ∧ (∀ i : Nat, c.prev.2.current_node = some i → i < c.tree.entries.length) := by
  cases hcur : c.current_node with
  | some n =>
    rw [prev_of_pos c n hcur]
    exact ⟨rfl, fun i hi => tree_precursor_lt c.tree n i hi⟩
  | none =>
    cases hsn : c.search_node with
    | some s =>
      rw [prev_of_seek c s hcur hsn]
      exact ⟨rfl, fun i hi => tree_search_nearest_backward_lt c.tree s i hi⟩
    | none =>
      by_cases he : c.tree.entries = []
      · rw [prev_of_empty c hcur hsn he]
        exact ⟨rfl, fun i hi => by cases hi⟩
      · rw [prev_of_fresh c hcur hsn he]
        refine ⟨rfl, ?_⟩
        intro i hi
        have hi2 : some (local_maximum c.tree) = some i := hi
        cases hi2
        have hl : 0 < c.tree.entries.length := List.length_pos.mpr he
        simp only [local_maximum]
        omega

/-- C7: a call that reaches a node returns exactly the mapper applied
once to that node's (value, key) pair; a call that reaches no node
returns the null sentinel without invoking the mapper. -/
theorem C7_mapper_called_exactly {α β : Type} (c : Cursor α β) :
    ((∀ i : Nat, c.next.2.current_node = some i →
        ∃ e, c.tree.entries[i]? = some e
          ∧ c.next.1 = some (c.outputMapperFn e.2 e.1))
      ∧ (c.next.2.current_node = none → c.next.1 = none))
    ∧ ((∀ i : Nat, c.prev.2.current_node = some i →
        ∃ e, c.tree.entries[i]? = some e
          ∧ c.prev.1 = some (c.outputMapperFn e.2 e.1))
      ∧ (c.prev.2.current_node = none → c.prev.1 = none)) := by
  refine ⟨⟨?_, ?_⟩, ?_, ?_⟩
  · intro i hi
    have hlt := (next_result c).2 i hi
    refine ⟨c.tree.entries[i], List.getElem?_eq_getElem hlt, ?_⟩
    rw [(next_result c).1, hi, mapNode_some_of_lt c i hlt]
  · intro hnone
    rw [(next_result c).1, hnone]
    rfl
  · intro i hi
    have hlt := (prev_result c).2 i hi
    refine ⟨c.tree.entries[i], List.getElem?_eq_getElem hlt, ?_⟩
    rw [(prev_result c).1, hi, mapNode_some_of_lt c i hlt]
  · intro hnone
    rw [(prev_result c).1, hnone]
    rfl

/-- Witness for C7 at the first step of a fresh cursor over the sample
tree. -/
theorem C7_mapper_called_exactly_witness :
    (Cursor.mk sampleTree none samplePair none).next.1
      = some (samplePair 10 (Interval.mk 1 2)) := by
  have h := (C7_mapper_called_exactly
    (Cursor.mk sampleTree none samplePair none)).1.1 0 rfl
  obtain ⟨e, he, hout⟩ := h
  have he2 : some ((Interval.mk 1 2 : Interval), (10 : Nat)) = some e := he
  cases he2
  exact hout

/-- C10: a call returns the null sentinel exactly when it leaves the
cursor with no current position; a non-null mapped result is returned
exactly when the call anchors the cursor at a real node. -/
theorem C10_none_iff_unanchored {α β : Type} (c : Cursor α β) :
    (c.next.1 = none ↔ c.next.2.current_node = none)
    ∧ (c.prev.1 = none ↔ c.prev.2.current_node = none) := by
  constructor
  · rw [(next_result c).1]
    cases ho : c.next.2.current_node with
    | none => simp [Cursor.mapNode]
    | some i =>
      have hlt := (next_result c).2 i ho
      rw [mapNode_some_of_lt c i hlt]
      simp
  · rw [(prev_result c).1]
    cases ho : c.prev.2.current_node with
    | none => simp [Cursor.mapNode]
    | some i =>
      have hlt := (prev_result c).2 i ho
      rw [mapNode_some_of_lt c i hlt]
      simp

/-- C6: a cursor anchored at a node steps relative to its current
position in the requested direction: a next() that yields the entry at
the following position, immediately followed by prev(), yields that
entry's predecessor (the original entry), and a further next() yields
the following entry again, so alternating calls oscillate. -/
theorem C6_oscillation {α β : Type} (c : Cursor α β) (i : Nat)
    (h1 : c.current_node = some i) (h2 : i + 1 < c.tree.entries.length) :
    c.next.1 = some (c.outputMapperFn c.tree.entries[i + 1].2 c.tree.entries[i + 1].1)
    ∧ c.next.2.prev.1
        = some (c.outputMapperFn c.tree.entries[i].2 c.tree.entries[i].1)
    ∧ c.next.2.prev.2.current_node = some i
    ∧ c.next.2.prev.2.next.1
        = some (c.outputMapperFn c.tree.entries[i + 1].2 c.tree.entries[i + 1].1) := by
  have hi : i < c.tree.entries.length := by omega
  have hsucc : tree_successor c.tree i = some (i + 1) := by
    unfold tree_successor
    rw [if_pos h2]
  have hprec : tree_precursor c.tree (i + 1) = some i := by
    unfold tree_precursor
    rw [if_pos (And.intro (Nat.succ_pos i) h2)]
    rfl
  have hstep1 := next_of_pos c i h1
  rw [hsucc] at hstep1
  have hstep2 := prev_of_pos ({ c with current_node := some (i + 1) } : Cursor α β)
    (i + 1) rfl
  rw [show ({ c with current_node := some (i + 1) } : Cursor α β).tree = c.tree
    from rfl, hprec] at hstep2
  have hstep3 := next_of_pos ({ c with current_node := some i } : Cursor α β) i rfl
  rw [show ({ c with current_node := some i } : Cursor α β).tree = c.tree
    from rfl, hsucc] at hstep3
  have hmap1 := mapNode_some_of_lt c (i + 1) h2
  have hmap0 : ({ c with current_node := some (i + 1) } : Cursor α β).mapNode (some i)
      = some (c.outputMapperFn c.tree.entries[i].2 c.tree.entries[i].1) :=
    mapNode_some_of_lt _ i hi
  have hmap1b : ({ c with current_node := some i } : Cursor α β).mapNode (some (i + 1))
      = some (c.outputMapperFn c.tree.entries[i + 1].2 c.tree.entries[i + 1].1) :=
    mapNode_some_of_lt _ (i + 1) h2
  refine ⟨?_, ?_, ?_, ?_⟩
  · rw [hstep1]
    exact hmap1
  · rw [hstep1]
    show ({ c with current_node := some (i + 1) } : Cursor α β).prev.1 = _
    rw [hstep2]
    exact hmap0
  · rw [hstep1]
    show ({ c with current_node := some (i + 1) } : Cursor α β).prev.2.current_node
      = some i
    rw [hstep2]
  · rw [hstep1]
    show ({ c with current_node := some (i + 1) } : Cursor α β).prev.2.next.1 = _
    rw [hstep2]
    show ({ c with current_node := some i } : Cursor α β).next.1 = _
    rw [hstep3]
    exact hmap1b

/-- Witness for C6 at a concrete anchored cursor over the sample
tree. -/
theorem C6_oscillation_witness :
    (Cursor.mk sampleTree none samplePair (some 0)).next.1
        = some (20, Interval.mk 3 4)
    ∧ (Cursor.mk sampleTree none samplePair (some 0)).next.2.prev.1
        = some (10, Interval.mk 1 2)
    ∧ (Cursor.mk sampleTree none samplePair (some 0)).next.2.prev.2.next.1
        = some (20, Interval.mk 3 4) := by
  have h := C6_oscillation (Cursor.mk sampleTree none samplePair (some 0)) 0
    rfl (by decide)
  exact ⟨by rw [h.1]; decide, by rw [h.2.1]; decide, by rw [h.2.2.2]; decide⟩

/-- C9: every call consults the current state, delegates to exactly
one tree primitive (successor or predecessor from a position, the
nearest search from a fresh seek, the extremum from an unpositioned
state on a non-empty tree, or nothing on an empty tree), stores the
result as the new position, and returns that node's payload mapped
through the output function. -/
theorem C9_single_delegation {α β : Type} (c : Cursor α β) :
    (c.next.1 = c.mapNode c.next.2.current_node
      ∧ ((∃ n, c.current_node = some n
            ∧ c.next.2.current_node = tree_successor c.tree n)
        ∨ (∃ s, c.current_node = none ∧ c.search_node = some s
            ∧ c.next.2.current_node = tree_search_nearest_forward c.tree s)
        ∨ (c.current_node = none ∧ c.search_node = none ∧ c.tree.entries ≠ []
            ∧ c.next.2.current_node = some (local_minimum c.tree))
        ∨ (c.current_node = none ∧ c.search_node = none ∧ c.tree.entries = []
            ∧ c.next.2.current_node = none)))
    ∧ (c.prev.1 = c.mapNode c.prev.2.current_node
      ∧ ((∃ n, c.current_node = some n
            ∧ c.prev.2.current_node = tree_precursor c.tree n)
        ∨ (∃ s, c.current_node = none ∧ c.search_node = some s
            ∧ c.prev.2.current_node = tree_search_nearest_backward c.tree s)
        ∨ (c.current_node = none ∧ c.search_node = none ∧ c.tree.entries ≠ []
            ∧ c.prev.2.current_node = some (local_maximum c.tree))
        ∨ (c.current_node = none ∧ c.search_node = none ∧ c.tree.entries = []
            ∧ c.prev.2.current_node = none))) := by
  refine ⟨⟨(next_result c).1, ?_⟩, (prev_result c).1, ?_⟩
  · cases hcur : c.current_node with
    | some n =>
      refine Or.inl ⟨n, rfl, ?_⟩
      rw [next_of_pos c n hcur]
    | none =>
      cases hsn : c.search_node with
      | some s =>
        refine Or.inr (Or.inl ⟨s, rfl, rfl, ?_⟩)
        rw [next_of_seek c s hcur hsn]
      | none =>
        by_cases he : c.tree.entries = []
        · refine Or.inr (Or.inr (Or.inr ⟨rfl, rfl, he, ?_⟩))
          rw [next_of_empty c hcur hsn he]
        · refine Or.inr (Or.inr (Or.inl ⟨rfl, rfl, he, ?_⟩))
          rw [next_of_fresh c hcur hsn he]
  · cases hcur : c.current_node with
    | some n =>
      refine Or.inl ⟨n, rfl, ?_⟩
      rw [prev_of_pos c n hcur]
    | none =>
      cases hsn : c.search_node with
      | some s =>
        refine Or.inr (Or.inl ⟨s, rfl, rfl, ?_⟩)
        rw [prev_of_seek c s hcur hsn]
      | none =>
        by_cases he : c.tree.entries = []
        · refine Or.inr (Or.inr (Or.inr ⟨rfl, rfl, he, ?_⟩))
          rw [prev_of_empty c hcur hsn he]
        · refine Or.inr (Or.inr (Or.inl ⟨rfl, rfl, he, ?_⟩))
          rw [prev_of_fresh c hcur hsn he]

/-- Witness for C1: the full traversal of the sample tree. -/
theorem C1_full_traversal_sorted_witness :
    (nextRun (Cursor.make sampleTree none samplePair) 3).1
      = [some (10, Interval.mk 1 2), some (20, Interval.mk 3 4), none] := by
  have h := (C1_full_traversal_sorted sampleTree samplePair).1
  exact h.trans (by decide)

/-- Witness for C3: the [5,5] seek over the [3,3]/[7,7] tree. -/
theorem C3_seek_semantics_witness :
    (Cursor.make (twoTree (100 : Nat) 200) (some (Interval.mk 5 5)) samplePair).next.1
        = some (200, Interval.mk 7 7)
    ∧ (Cursor.make (twoTree (100 : Nat) 200) (some (Interval.mk 5 5)) samplePair).prev.1
        = some (100, Interval.mk 3 3) := by
  have h := (C3_seek_semantics (twoTree (100 : Nat) 200) (Interval.mk 5 5)
    samplePair).2.2 100 200
  exact ⟨h.1, h.2⟩

/-- Witness for C8 at a concrete cursor. -/
theorem C8_frame_no_tree_mutation_witness :
    (Cursor.mk sampleTree (some (Interval.mk 1 2)) samplePair none).next.2.tree
      = sampleTree :=
  (C8_frame_no_tree_mutation
    (Cursor.mk sampleTree (some (Interval.mk 1 2)) samplePair none)).1

/-- Witness for C9 at a concrete cursor. -/
theorem C9_single_delegation_witness :
    (Cursor.mk sampleTree none samplePair (some 0)).next.1
      = (Cursor.mk sampleTree none samplePair (some 0)).mapNode
          (Cursor.mk sampleTree none samplePair (some 0)).next.2.current_node :=
  (C9_single_delegation (Cursor.mk sampleTree none samplePair (some 0))).1.1

/-- Witness for C10 at a concrete cursor positioned at the last
entry. -/
theorem C10_none_iff_unanchored_witness :
    ((Cursor.mk sampleTree none samplePair (some 1)).next.1 = none
      ↔ (Cursor.mk sampleTree none samplePair (some 1)).next.2.current_node = none) :=
  (C10_none_iff_unanchored (Cursor.mk sampleTree none samplePair (some 1))).1

end FlattenIntervalTree
